import Mathlib

/-!
Shallow embedding of the sequence cursor of rand-sequence (src/sequence.rs).

A fixed-width unsigned integer of width w is modelled as a natural number,
with wrapping arithmetic made explicit as reduction modulo 2 ^ w.  The
parameter source (RandomSequenceBuilder, defined outside sequence.rs) is
opaque: only the pieces the cursor reads are modelled, namely the primitive
permutation permute_qpr and the scalar intermediate_xor.
-/

namespace RandSeq

/-- Wrapping addition on w-bit unsigned integers: T::wrapping_add. -/
def wrappingAdd (w a b : Nat) : Nat := (a + b) % 2 ^ w

/-- Wrapping subtraction on w-bit unsigned integers: T::wrapping_sub. -/
def wrappingSub (w a b : Nat) : Nat := (a + (2 ^ w - b % 2 ^ w)) % 2 ^ w

/-- The opaque configuration produced by the parameter source.  The cursor
code reads exactly two things from it: the primitive permutation
permute_qpr and the xor mask intermediate_xor. -/
structure RandomSequenceBuilder where
  permute_qpr : Nat → Nat
  intermediate_xor : Nat

/-- The sequence cursor, with the four fields of the Rust struct
RandomSequence: the config plus start_index, current_index and the cached
intermediate_offset. -/
structure RandomSequence where
  config : RandomSequenceBuilder
  start_index : Nat
  current_index : Nat
  intermediate_offset : Nat

/-- RandomSequence::n_internal:
qpr(index).wrapping_add(offset), then qpr(inner ^ intermediate_xor). -/
def RandomSequence.n_internal (s : RandomSequence) (w index : Nat) : Nat :=
  let inner_residue := wrappingAdd w (s.config.permute_qpr index) s.intermediate_offset
  s.config.permute_qpr (inner_residue ^^^ s.config.intermediate_xor)

/-- RandomSequence::next: read the value at current_index, then advance
current_index by one (wrapping).  Returns the value and the new state. -/
def RandomSequence.next (s : RandomSequence) (w : Nat) : Nat × RandomSequence :=
  let nxt := s.n_internal w s.current_index
  (nxt, { s with current_index := wrappingAdd w s.current_index 1 })

/-- RandomSequence::prev: decrement current_index by one (wrapping), then
read the value at the new current_index. -/
def RandomSequence.prev (s : RandomSequence) (w : Nat) : Nat × RandomSequence :=
  let s2 := { s with current_index := wrappingSub w s.current_index 1 }
  (s2.n_internal w s2.current_index, s2)

/-- RandomSequence::n: the value at start_index.wrapping_add(index). -/
def RandomSequence.n (s : RandomSequence) (w index : Nat) : Nat :=
  s.n_internal w (wrappingAdd w s.start_index index)

/-- RandomSequence::index: current_index.wrapping_sub(start_index). -/
def RandomSequence.index (s : RandomSequence) (w : Nat) : Nat :=
  wrappingSub w s.current_index s.start_index

/-- Iterator::next for RandomSequence: Some(self.next()). -/
def RandomSequence.iter_next (s : RandomSequence) (w : Nat) : Option Nat × RandomSequence :=
  let r := s.next w
  (some r.1, r.2)

/-- DoubleEndedIterator::next_back for RandomSequence: Some(self.prev()). -/
def RandomSequence.iter_next_back (s : RandomSequence) (w : Nat) : Option Nat × RandomSequence :=
  let r := s.prev w
  (some r.1, r.2)

/-- The cursor state after k forward steps (k calls to next, discarding the
returned values). -/
def RandomSequence.stepN (s : RandomSequence) (w : Nat) : Nat → RandomSequence
  | 0 => s
  | k + 1 => ((s.stepN w k).next w).2

/-- The value returned by the (k+1)-th call to next from state s. -/
def RandomSequence.nextVal (s : RandomSequence) (w k : Nat) : Nat :=
  ((s.stepN w k).next w).1

/-- The cursor state after k backward steps (k calls to prev). -/
def RandomSequence.stepBackN (s : RandomSequence) (w : Nat) : Nat → RandomSequence
  | 0 => s
  | k + 1 => ((s.stepBackN w k).prev w).2

/-- The value returned by the (k+1)-th call to prev from state s. -/
def RandomSequence.prevVal (s : RandomSequence) (w k : Nat) : Nat :=
  ((s.stepBackN w k).prev w).1

/-- One step of an interleaving: true is a next() call, false a prev() call. -/
def RandomSequence.applyStep (s : RandomSequence) (w : Nat) (d : Bool) : RandomSequence :=
  if d then (s.next w).2 else (s.prev w).2

/-- The cursor state after an arbitrary interleaving of next() and prev()
calls, given as a list of directions. -/
def RandomSequence.applySteps (s : RandomSequence) (w : Nat) : List Bool → RandomSequence
  | [] => s
  | d :: ds => ((s.applyStep w d).applySteps w ds)

/-- Well-formedness of a configuration for width w: the xor mask is in
range and the primitive permutation is a bijection of the full w-bit
range, as the spec requires of the parameter source. -/
def BuilderWF (w : Nat) (c : RandomSequenceBuilder) : Prop :=
  c.intermediate_xor < 2 ^ w ∧
  Set.BijOn c.permute_qpr (Set.Iio (2 ^ w)) (Set.Iio (2 ^ w))

/-- Well-formedness of a cursor for width w: the configuration is
well-formed and all three scalar fields are in w-bit range. -/
def SeqWF (w : Nat) (s : RandomSequence) : Prop :=
  BuilderWF w s.config ∧ s.start_index < 2 ^ w ∧ s.current_index < 2 ^ w ∧
  s.intermediate_offset < 2 ^ w

/-- A concrete sample configuration: the identity permutation, zero mask. -/
def sampleBuilder : RandomSequenceBuilder := ⟨fun x => x, 0⟩

/-- A concrete freshly constructed sample cursor at origin 0. -/
def sampleSeq : RandomSequence := ⟨sampleBuilder, 0, 0, 0⟩

/-- 2 ^ w is positive. -/
lemma two_pow_pos (w : Nat) : 0 < 2 ^ w := Nat.pos_pow_of_pos w (by norm_num)

lemma wrappingAdd_lt (w a b : Nat) : wrappingAdd w a b < 2 ^ w :=
  Nat.mod_lt _ (two_pow_pos w)

lemma wrappingSub_lt (w a b : Nat) : wrappingSub w a b < 2 ^ w :=
  Nat.mod_lt _ (two_pow_pos w)

/-- Casting a mod 2 ^ w reduction into ZMod (2 ^ w) is the identity. -/
lemma cast_mod_pow (w a : Nat) :
    ((a % 2 ^ w : Nat) : ZMod (2 ^ w)) = (a : ZMod (2 ^ w)) := by
  rw [ZMod.natCast_eq_natCast_iff']
  exact Nat.mod_mod_of_dvd a dvd_rfl

/-- Casting a wrapping add into ZMod (2 ^ w) gives the plain sum. -/
lemma wrappingAdd_cast (w a b : Nat) :
    ((wrappingAdd w a b : Nat) : ZMod (2 ^ w)) = (a : ZMod (2 ^ w)) + b := by
  unfold wrappingAdd
  rw [cast_mod_pow]
  push_cast
  ring

/-- Casting a wrapping sub into ZMod (2 ^ w) gives the plain difference. -/
lemma wrappingSub_cast (w a b : Nat) :
    ((wrappingSub w a b : Nat) : ZMod (2 ^ w)) = (a : ZMod (2 ^ w)) - b := by
  unfold wrappingSub
  rw [cast_mod_pow]
  have hle : b % 2 ^ w ≤ 2 ^ w := le_of_lt (Nat.mod_lt _ (two_pow_pos w))
  rw [Nat.cast_add, Nat.cast_sub hle, cast_mod_pow, ZMod.natCast_self]
  ring

/-- Two w-bit-range naturals that agree in ZMod (2 ^ w) are equal. -/
lemma eq_of_cast_eq (w a b : Nat) (ha : a < 2 ^ w) (hb : b < 2 ^ w)
    (h : (a : ZMod (2 ^ w)) = (b : ZMod (2 ^ w))) : a = b := by
  rw [ZMod.natCast_eq_natCast_iff'] at h
  rwa [Nat.mod_eq_of_lt ha, Nat.mod_eq_of_lt hb] at h

/-- next changes only current_index. -/
lemma next_frame (s : RandomSequence) (w : Nat) :
    (s.next w).2.config = s.config ∧ (s.next w).2.start_index = s.start_index ∧
    (s.next w).2.intermediate_offset = s.intermediate_offset := ⟨rfl, rfl, rfl⟩

/-- prev changes only current_index. -/
lemma prev_frame (s : RandomSequence) (w : Nat) :
    (s.prev w).2.config = s.config ∧ (s.prev w).2.start_index = s.start_index ∧
    (s.prev w).2.intermediate_offset = s.intermediate_offset := ⟨rfl, rfl, rfl⟩

/-- stepN changes only current_index. -/
lemma stepN_frame (s : RandomSequence) (w k : Nat) :
    (s.stepN w k).config = s.config ∧ (s.stepN w k).start_index = s.start_index ∧
    (s.stepN w k).intermediate_offset = s.intermediate_offset := by
  induction k with
  | zero => exact ⟨rfl, rfl, rfl⟩
  | succ k ih => exact ih

/-- stepBackN changes only current_index. -/
lemma stepBackN_frame (s : RandomSequence) (w k : Nat) :
    (s.stepBackN w k).config = s.config ∧
    (s.stepBackN w k).start_index = s.start_index ∧
    (s.stepBackN w k).intermediate_offset = s.intermediate_offset := by
  induction k with
  | zero => exact ⟨rfl, rfl, rfl⟩
  | succ k ih => exact ih

/-- n_internal depends only on config and intermediate_offset, so it is
invariant under any change of current_index (e.g. stepping). -/
lemma n_internal_congr (s t : RandomSequence) (w : Nat) (hc : t.config = s.config)
    (ho : t.intermediate_offset = s.intermediate_offset) :
    t.n_internal w = s.n_internal w := by
  funext i
  unfold RandomSequence.n_internal
  rw [hc, ho]

/-- After k forward steps from a state whose current_index is in range,
current_index holds (c + k) mod 2 ^ w. -/
lemma stepN_current (s : RandomSequence) (w : Nat) (h : s.current_index < 2 ^ w) :
    ∀ k, (s.stepN w k).current_index = (s.current_index + k) % 2 ^ w := by
  intro k
  induction k with
  | zero => simpa using (Nat.mod_eq_of_lt h).symm
  | succ k ih =>
      show wrappingAdd w (s.stepN w k).current_index 1 = _
      rw [ih]
      unfold wrappingAdd
      rw [Nat.mod_add_mod, Nat.add_assoc]

/-- The (k+1)-th next value from an in-range state is n_internal at
(c + k) mod 2 ^ w. -/
lemma nextVal_eq (s : RandomSequence) (w : Nat) (h : s.current_index < 2 ^ w) (k : Nat) :
    s.nextVal w k = s.n_internal w ((s.current_index + k) % 2 ^ w) := by
  unfold RandomSequence.nextVal RandomSequence.next
  obtain ⟨hc, _, ho⟩ := stepN_frame s w k
  rw [n_internal_congr s (s.stepN w k) w hc ho, stepN_current s w h k]

/-- After any number of backward steps current_index remains in range,
provided it started in range. -/
lemma stepBackN_current_lt (s : RandomSequence) (w : Nat) (h : s.current_index < 2 ^ w) :
    ∀ k, (s.stepBackN w k).current_index < 2 ^ w := by
  intro k
  cases k with
  | zero => exact h
  | succ k => exact wrappingSub_lt w _ _

/-- After k backward steps, current_index is congruent to c - k mod 2 ^ w. -/
lemma stepBackN_current_cast (s : RandomSequence) (w : Nat) :
    ∀ k, (((s.stepBackN w k).current_index : Nat) : ZMod (2 ^ w)) =
      (s.current_index : ZMod (2 ^ w)) - k := by
  intro k
  induction k with
  | zero => simp [RandomSequence.stepBackN]
  | succ k ih =>
      show ((wrappingSub w (s.stepBackN w k).current_index 1 : Nat) : ZMod (2 ^ w)) = _
      rw [wrappingSub_cast, ih]
      push_cast
      ring

/-- Wrapping-subtracting b undoes wrapping-adding b, on in-range values. -/
lemma wrappingSub_wrappingAdd_cancel (w a b : Nat) (h : a < 2 ^ w) :
    wrappingSub w (wrappingAdd w a b) b = a := by
  refine eq_of_cast_eq w _ a (wrappingSub_lt w _ _) h ?_
  rw [wrappingSub_cast, wrappingAdd_cast]
  ring

/-- Wrapping-adding b undoes wrapping-subtracting b, on in-range values. -/
lemma wrappingAdd_wrappingSub_cancel (w a b : Nat) (h : a < 2 ^ w) :
    wrappingAdd w (wrappingSub w a b) b = a := by
  refine eq_of_cast_eq w _ a (wrappingAdd_lt w _ _) h ?_
  rw [wrappingAdd_cast, wrappingSub_cast]
  ring

/-- Wrapping addition of a fixed offset is a bijection of the w-bit range. -/
lemma wrappingAdd_bijOn (w b : Nat) :
    Set.BijOn (fun x => wrappingAdd w x b) (Set.Iio (2 ^ w)) (Set.Iio (2 ^ w)) := by
  have hinv : Set.InvOn (fun y => wrappingSub w y b) (fun x => wrappingAdd w x b)
      (Set.Iio (2 ^ w)) (Set.Iio (2 ^ w)) := by
    constructor
    · intro x hx
      exact wrappingSub_wrappingAdd_cancel w x b hx
    · intro y hy
      exact wrappingAdd_wrappingSub_cancel w y b hy
  exact hinv.bijOn (fun x _ => wrappingAdd_lt w x b) (fun y _ => wrappingSub_lt w y b)

/-- XOR with a fixed in-range mask is a bijection of the w-bit range. -/
lemma xor_bijOn (w mask : Nat) (hm : mask < 2 ^ w) :
    Set.BijOn (fun x => x ^^^ mask) (Set.Iio (2 ^ w)) (Set.Iio (2 ^ w)) := by
  have hinv : Set.InvOn (fun y => y ^^^ mask) (fun x => x ^^^ mask)
      (Set.Iio (2 ^ w)) (Set.Iio (2 ^ w)) := by
    constructor
    · intro x _
      exact Nat.xor_cancel_right mask x
    · intro y _
      exact Nat.xor_cancel_right mask y
  exact hinv.bijOn (fun x hx => Nat.xor_lt_two_pow hx hm)
    (fun y hy => Nat.xor_lt_two_pow hy hm)

/-- n_internal is the composition qpr, then wrapping offset, then xor
mask, then qpr again. -/
lemma n_internal_eq_comp (s : RandomSequence) (w : Nat) :
    s.n_internal w = s.config.permute_qpr ∘ ((fun x => x ^^^ s.config.intermediate_xor) ∘
      ((fun x => wrappingAdd w x s.intermediate_offset) ∘ s.config.permute_qpr)) := by
  funext i
  rfl

/-- For a well-formed cursor the composed permutation n_internal is a
bijection of the w-bit range. -/
lemma n_internal_bijOn (w : Nat) (s : RandomSequence) (h : SeqWF w s) :
    Set.BijOn (s.n_internal w) (Set.Iio (2 ^ w)) (Set.Iio (2 ^ w)) := by
  obtain ⟨⟨hxor, hbij⟩, _, _, _⟩ := h
  rw [n_internal_eq_comp]
  exact hbij.comp ((xor_bijOn w _ hxor).comp
    ((wrappingAdd_bijOn w s.intermediate_offset).comp hbij))

/-- On a fresh in-range cursor, sequential stepping agrees with random
access: the (k+1)-th next value is n(k). -/
lemma nextVal_eq_n (w : Nat) (s : RandomSequence) (hfresh : s.current_index = s.start_index)
    (hs : s.start_index < 2 ^ w) (k : Nat) : s.nextVal w k = s.n w k := by
  rw [nextVal_eq s w (hfresh ▸ hs) k, hfresh]
  rfl

/-- State invariants after an arbitrary interleaving of next and prev
calls: start_index is preserved, current_index stays in range, and
current_index tracks the signed step count modulo 2 ^ w. -/
lemma applySteps_invariants (w : Nat) (ds : List Bool) :
    ∀ s : RandomSequence, s.current_index < 2 ^ w →
      (s.applySteps w ds).start_index = s.start_index ∧
      (s.applySteps w ds).current_index < 2 ^ w ∧
      (((s.applySteps w ds).current_index : Nat) : ZMod (2 ^ w)) =
        (s.current_index : ZMod (2 ^ w)) + (ds.count true : ZMod (2 ^ w)) -
          (ds.count false : ZMod (2 ^ w)) := by
  induction ds with
  | nil =>
      intro s h
      exact ⟨rfl, h, by simp [RandomSequence.applySteps]⟩
  | cons d ds ih =>
      intro s h
      cases d with
      | true =>
          obtain ⟨h1, h2, h3⟩ := ih ((s.next w).2) (wrappingAdd_lt w _ _)
          refine ⟨h1, h2, ?_⟩
          show ((((s.next w).2.applySteps w ds).current_index : Nat) : ZMod (2 ^ w)) = _
          rw [h3]
          show ((wrappingAdd w s.current_index 1 : Nat) : ZMod (2 ^ w)) + _ - _ = _
          rw [wrappingAdd_cast]
          simp [List.count_cons]
          ring
      | false =>
          obtain ⟨h1, h2, h3⟩ := ih ((s.prev w).2) (wrappingSub_lt w _ _)
          refine ⟨h1, h2, ?_⟩
          show ((((s.prev w).2.applySteps w ds).current_index : Nat) : ZMod (2 ^ w)) = _
          rw [h3]
          show ((wrappingSub w s.current_index 1 : Nat) : ZMod (2 ^ w)) + _ - _ = _
          rw [wrappingSub_cast]
          simp [List.count_cons]
          ring

/-- Spec-side definition of the composed permutation, following the spec
text of §4.1 word for word: inner = config.permute(i) + intermediate_offset
(wrapping add); result = config.permute(inner XOR mix_mask). -/
def value_at_spec (s : RandomSequence) (w i : Nat) : Nat :=
  let inner := wrappingAdd w (s.config.permute_qpr i) s.intermediate_offset
  s.config.permute_qpr (inner ^^^ s.config.intermediate_xor)

/-- C1: assuming config.permute_qpr is a bijection over the full w-bit
range, the composed permutation n_internal is a bijection over the full
w-bit range; consequently, for every k ≤ 2 ^ w, the first k values
produced by repeated next() calls from a freshly constructed cursor are
pairwise distinct. -/
theorem c1_composed_bijection_and_distinct (w : Nat) (s : RandomSequence)
    (h : SeqWF w s) (hfresh : s.current_index = s.start_index) :
    Set.BijOn (s.n_internal w) (Set.Iio (2 ^ w)) (Set.Iio (2 ^ w)) ∧
    ∀ k, k ≤ 2 ^ w → ∀ i, i < k → ∀ j, j < k → i ≠ j →
      s.nextVal w i ≠ s.nextVal w j := by
  have hbij := n_internal_bijOn w s h
  refine ⟨hbij, ?_⟩
  intro k hk i hi j hj hij heq
  obtain ⟨_, _, hc, _⟩ := h
  rw [nextVal_eq s w hc i, nextVal_eq s w hc j] at heq
  have hmem1 : (s.current_index + i) % 2 ^ w ∈ Set.Iio (2 ^ w) :=
    Nat.mod_lt _ (two_pow_pos w)
  have hmem2 : (s.current_index + j) % 2 ^ w ∈ Set.Iio (2 ^ w) :=
    Nat.mod_lt _ (two_pow_pos w)
  have hargs := hbij.injOn hmem1 hmem2 heq
  have hmod : i % 2 ^ w = j % 2 ^ w :=
    Nat.ModEq.add_left_cancel' s.current_index hargs
  rw [Nat.mod_eq_of_lt (lt_of_lt_of_le hi hk),
    Nat.mod_eq_of_lt (lt_of_lt_of_le hj hk)] at hmod
  exact hij hmod

/-- Witness for C1 at w = 3 with the identity permutation and zero
mask/offset. -/
theorem c1_witness :
    Set.BijOn (sampleSeq.n_internal 3) (Set.Iio (2 ^ 3)) (Set.Iio (2 ^ 3)) ∧
    ∀ k, k ≤ 2 ^ 3 → ∀ i, i < k → ∀ j, j < k → i ≠ j →
      sampleSeq.nextVal 3 i ≠ sampleSeq.nextVal 3 j :=
  c1_composed_bijection_and_distinct 3 sampleSeq
    ⟨⟨by decide, by exact Set.bijOn_id (Set.Iio (2 ^ 3))⟩,
      by decide, by decide, by decide⟩ rfl

/-- C2: the composed permutation computes exactly the spec formula: inner
is config.permute_qpr(i) wrapping-added to intermediate_offset, and the
result is config.permute_qpr(inner XOR intermediate_xor), with no other
arithmetic. -/
theorem c2_composed_formula (w : Nat) (s : RandomSequence) (i : Nat) :
    s.n_internal w i = value_at_spec s w i := rfl

/-- C3: next() followed by prev() (and prev() followed by next()) restores
current_index exactly and both calls return the same value. -/
theorem c3_next_prev_inverse (w : Nat) (s : RandomSequence)
    (h : s.current_index < 2 ^ w) :
    ((s.next w).2.prev w).1 = (s.next w).1 ∧
    ((s.next w).2.prev w).2.current_index = s.current_index ∧
    ((s.prev w).2.next w).1 = (s.prev w).1 ∧
    ((s.prev w).2.next w).2.current_index = s.current_index := by
  have h1 : wrappingSub w (wrappingAdd w s.current_index 1) 1 = s.current_index :=
    wrappingSub_wrappingAdd_cancel w s.current_index 1 h
  have h2 : wrappingAdd w (wrappingSub w s.current_index 1) 1 = s.current_index :=
    wrappingAdd_wrappingSub_cancel w s.current_index 1 h
  refine ⟨?_, ?_, rfl, ?_⟩
  · show RandomSequence.n_internal _ w (wrappingSub w (wrappingAdd w s.current_index 1) 1) =
      RandomSequence.n_internal _ w s.current_index
    rw [h1]
    rfl
  · show wrappingSub w (wrappingAdd w s.current_index 1) 1 = s.current_index
    exact h1
  · show wrappingAdd w (wrappingSub w s.current_index 1) 1 = s.current_index
    exact h2

/-- Witness for C3 at w = 3 on the sample cursor. -/
theorem c3_witness :
    ((sampleSeq.next 3).2.prev 3).1 = (sampleSeq.next 3).1 ∧
    ((sampleSeq.next 3).2.prev 3).2.current_index = sampleSeq.current_index ∧
    ((sampleSeq.prev 3).2.next 3).1 = (sampleSeq.prev 3).1 ∧
    ((sampleSeq.prev 3).2.next 3).2.current_index = sampleSeq.current_index :=
  c3_next_prev_inverse 3 sampleSeq (by decide)

/-- C4: for a fresh in-range cursor, n(k) equals the (k+1)-th value
obtained by repeated next() calls — random access and sequential stepping
agree element for element. -/
theorem c4_random_access_consistency (w : Nat) (s : RandomSequence)
    (hfresh : s.current_index = s.start_index) (hs : s.start_index < 2 ^ w)
    (k : Nat) (hk : k < 2 ^ w) : s.nextVal w k = s.n w k :=
  nextVal_eq_n w s hfresh hs k

/-- Witness for C4 at w = 3, k = 5 on the sample cursor. -/
theorem c4_witness : sampleSeq.nextVal 3 5 = sampleSeq.n 3 5 :=
  c4_random_access_consistency 3 sampleSeq rfl (by decide) 5 (by decide)

/-- The value returned by prev is n_internal at the decremented index. -/
lemma prev_val_eq (s : RandomSequence) (w : Nat) :
    (s.prev w).1 = s.n_internal w (wrappingSub w s.current_index 1) := rfl

/-- The (k+1)-th prev value from state s is n_internal at the index one
below the state reached after k backward steps. -/
lemma prevVal_eq (s : RandomSequence) (w k : Nat) :
    s.prevVal w k =
      s.n_internal w (wrappingSub w (s.stepBackN w k).current_index 1) := by
  unfold RandomSequence.prevVal
  rw [prev_val_eq]
  obtain ⟨hcfg, _, hoff⟩ := stepBackN_frame s w k
  rw [n_internal_congr s (s.stepBackN w k) w hcfg hoff]

/-- C5: index() is the wrapping difference current_index - start_index,
and after any interleaving of a next() calls and b prev() calls from a
fresh cursor, index() equals (a - b) mod 2 ^ w. -/
theorem c5_index_accounting (w : Nat) (s : RandomSequence)
    (hfresh : s.current_index = s.start_index) (hs : s.start_index < 2 ^ w)
    (ds : List Bool) :
    (∀ t : RandomSequence, t.index w = wrappingSub w t.current_index t.start_index) ∧
    (s.applySteps w ds).index w < 2 ^ w ∧
    (((s.applySteps w ds).index w : Nat) : ZMod (2 ^ w)) =
      (ds.count true : ZMod (2 ^ w)) - (ds.count false : ZMod (2 ^ w)) := by
  obtain ⟨h1, h2, h3⟩ := applySteps_invariants w ds s (hfresh ▸ hs)
  refine ⟨fun t => rfl, wrappingSub_lt w _ _, ?_⟩
  show ((wrappingSub w (s.applySteps w ds).current_index
    (s.applySteps w ds).start_index : Nat) : ZMod (2 ^ w)) = _
  rw [wrappingSub_cast, h3, h1, hfresh]
  ring

/-- Witness for C5 at w = 3 with three next() calls and one prev() call. -/
theorem c5_witness :
    (∀ t : RandomSequence, t.index 3 = wrappingSub 3 t.current_index t.start_index) ∧
    (sampleSeq.applySteps 3 [true, true, false, true]).index 3 < 2 ^ 3 ∧
    (((sampleSeq.applySteps 3 [true, true, false, true]).index 3 : Nat) : ZMod (2 ^ 3)) =
      (([true, true, false, true].count true : Nat) : ZMod (2 ^ 3)) -
        (([true, true, false, true].count false : Nat) : ZMod (2 ^ 3)) :=
  c5_index_accounting 3 sampleSeq rfl (by decide) [true, true, false, true]

/-- C6: next() returns the composed-permutation value at the pre-call
current_index and then advances current_index by one (wrapping); prev()
first decrements current_index by one (wrapping) and then returns the
composed-permutation value at the new current_index. -/
theorem c6_read_then_step (w : Nat) (s : RandomSequence) :
    (s.next w).1 = s.n_internal w s.current_index ∧
    (s.next w).2.current_index = wrappingAdd w s.current_index 1 ∧
    (s.prev w).2.current_index = wrappingSub w s.current_index 1 ∧
    (s.prev w).1 = s.n_internal w ((s.prev w).2.current_index) :=
  ⟨rfl, rfl, rfl, rfl⟩

/-- C7: n(i) is the composed-permutation value at start_index
wrapping-plus i; it does not depend on current_index, so stepping the
cursor never changes what n(i) returns (the cursor state is passed
immutably and returned unchanged by construction). -/
theorem c7_n_random_access (w : Nat) (cfg : RandomSequenceBuilder)
    (st c c2 off i : Nat) :
    (RandomSequence.mk cfg st c off).n w i =
      (RandomSequence.mk cfg st c off).n_internal w (wrappingAdd w st i) ∧
    (RandomSequence.mk cfg st c off).n w i = (RandomSequence.mk cfg st c2 off).n w i :=
  ⟨rfl, rfl⟩

/-- C8: from a fresh in-range cursor, the k-th backward value (1 ≤ k ≤
2 ^ w, via prev / next_back) equals n(2 ^ w - k), the k-th-from-last
value of a full forward traversal. -/
theorem c8_reverse_traversal (w : Nat) (s : RandomSequence)
    (hfresh : s.current_index = s.start_index) (hs : s.start_index < 2 ^ w)
    (k : Nat) (hk1 : 1 ≤ k) (hk2 : k ≤ 2 ^ w) :
    s.prevVal w (k - 1) = s.n w (2 ^ w - k) ∧
    s.prevVal w (k - 1) = s.nextVal w (2 ^ w - k) := by
  have hA : s.prevVal w (k - 1) =
      s.n_internal w (wrappingSub w (s.stepBackN w (k - 1)).current_index 1) :=
    prevVal_eq s w (k - 1)
  have hAB : wrappingSub w (s.stepBackN w (k - 1)).current_index 1 =
      wrappingAdd w s.start_index (2 ^ w - k) := by
    refine eq_of_cast_eq w _ _ (wrappingSub_lt w _ _) (wrappingAdd_lt w _ _) ?_
    rw [wrappingSub_cast, stepBackN_current_cast s w (k - 1), hfresh,
      wrappingAdd_cast, Nat.cast_sub hk2, Nat.cast_sub hk1, ZMod.natCast_self]
    push_cast
    ring
  have hn : s.prevVal w (k - 1) = s.n w (2 ^ w - k) := by
    rw [hA, hAB]
    rfl
  exact ⟨hn, by rw [hn, nextVal_eq_n w s hfresh hs (2 ^ w - k)]⟩

/-- Witness for C8 at w = 3, k = 2 on the sample cursor. -/
theorem c8_witness :
    sampleSeq.prevVal 3 (2 - 1) = sampleSeq.n 3 (2 ^ 3 - 2) ∧
    sampleSeq.prevVal 3 (2 - 1) = sampleSeq.nextVal 3 (2 ^ 3 - 2) :=
  c8_reverse_traversal 3 sampleSeq rfl (by decide) 2 (by decide) (by decide)

/-- C9: the iterator adapters always return Some of the cursor's next()
resp. prev() value, never None, and the produced sequence repeats with
period 2 ^ w. -/
theorem c9_iterators_total (w : Nat) (s : RandomSequence)
    (h : s.current_index < 2 ^ w) :
    (s.iter_next w).1 = some ((s.next w).1) ∧ (s.iter_next w).2 = (s.next w).2 ∧
    (s.iter_next_back w).1 = some ((s.prev w).1) ∧
    (s.iter_next_back w).2 = (s.prev w).2 ∧
    (∀ t : RandomSequence, (t.iter_next w).1 ≠ none ∧ (t.iter_next_back w).1 ≠ none) ∧
    ∀ k, s.nextVal w (k + 2 ^ w) = s.nextVal w k := by
  refine ⟨rfl, rfl, rfl, rfl,
    fun t => ⟨Option.some_ne_none _, Option.some_ne_none _⟩, ?_⟩
  intro k
  rw [nextVal_eq s w h, nextVal_eq s w h]
  have harg : (s.current_index + (k + 2 ^ w)) % 2 ^ w =
      (s.current_index + k) % 2 ^ w := by
    rw [← Nat.add_assoc, Nat.add_mod_right]
  rw [harg]

/-- Witness for C9 at w = 3 on the sample cursor. -/
theorem c9_witness :
    (sampleSeq.iter_next 3).1 = some ((sampleSeq.next 3).1) ∧
    (sampleSeq.iter_next 3).2 = (sampleSeq.next 3).2 ∧
    (sampleSeq.iter_next_back 3).1 = some ((sampleSeq.prev 3).1) ∧
    (sampleSeq.iter_next_back 3).2 = (sampleSeq.prev 3).2 ∧
    (∀ t : RandomSequence, (t.iter_next 3).1 ≠ none ∧ (t.iter_next_back 3).1 ≠ none) ∧
    ∀ k, sampleSeq.nextVal 3 (k + 2 ^ 3) = sampleSeq.nextVal 3 k :=
  c9_iterators_total 3 sampleSeq (by decide)

/-- C10: next() and prev() mutate only current_index — config,
start_index and intermediate_offset are unchanged (n() and index() are
embedded as pure functions of the state, mirroring the immutable borrows
in the source, so they change no field at all). -/
theorem c10_frame_effects (w : Nat) (s : RandomSequence) :
    (s.next w).2.config = s.config ∧ (s.next w).2.start_index = s.start_index ∧
    (s.next w).2.intermediate_offset = s.intermediate_offset ∧
    (s.prev w).2.config = s.config ∧ (s.prev w).2.start_index = s.start_index ∧
    (s.prev w).2.intermediate_offset = s.intermediate_offset :=
  ⟨rfl, rfl, rfl, rfl, rfl, rfl⟩

end RandSeq
